import Mathlib

/-!
Verification of the real-time feature-engineering pipeline of the Cuphead
boss-predictor application (`Assignment/realtime_predictor_app.py`).

The development shallowly embeds the pure computational core of the program:
key normalization (`KEY_ACTION_MAP`), the statistics engine and feature
assembly (`engineer_features`), and the time-aware sequence tokenizer
(`create_combo_sentence`).  Python floats are modelled as exact rationals;
the single operation with no exact rational counterpart, the square root
used by `np.std`, is passed in as an explicit function parameter `fsq`
(the values it produces are carried through the pipeline untouched by any
control decision).  Machine timestamps `t_ms` are natural numbers.
-/

/-- Kind of an input transition: `press` models a `keydown` record,
`release` models a `keyup` record. -/
inductive EventKind where
  | press : EventKind
  | release : EventKind
deriving DecidableEq, Repr

/-- A raw recorded event, as appended by the capture callbacks:
an event kind, the raw key string, and the elapsed milliseconds. -/
structure InputEvent where
  kind : EventKind
  key : String
  t : ℕ
deriving DecidableEq, Repr

/-- A normalized event: a raw event whose key was found in `KEY_ACTION_MAP`,
carrying both the raw key (used for duration pairing) and the mapped action. -/
structure NormEvent where
  kind : EventKind
  key : String
  action : String
  t : ℕ
deriving DecidableEq, Repr

/-- The key-to-action table `KEY_ACTION_MAP` of the source, verbatim. -/
def KEY_ACTION_MAP : List (String × String) :=
  [("Key.space", "jump"), ("f", "shoot"), ("d", "dash"), ("x", "ex_move"),
   ("a", "lock"), ("Key.up", "up"), ("Key.down", "down"),
   ("Key.left", "left"), ("Key.right", "right")]

/-- The fixed nine-action list iterated over by the percentage and
per-action-timing loops in `engineer_features`, in source order. -/
def ACTIONS : List String :=
  ["dash", "down", "ex_move", "jump", "left", "lock", "right", "shoot", "up"]

/-- The configured minimum number of events (`MIN_EVENTS_FOR_PREDICTION`). -/
def MIN_EVENTS_FOR_PREDICTION : ℕ := 15

/-- The gap threshold (ms) of the tokenizer: a break is inserted when the
time since the previous emitted token strictly exceeds this. -/
def GAP_MS : ℕ := 1000

/-- The break token inserted by `create_combo_sentence` between bursts. -/
def breakToken : String := "."

/-- Does the event model a `keydown` row. -/
def isPress (e : NormEvent) : Bool := e.kind == EventKind.press

/-- Does the event model a `keyup` row. -/
def isRelease (e : NormEvent) : Bool := e.kind == EventKind.release

/-- Step 2 of `engineer_features`: map each raw key through
`KEY_ACTION_MAP` and drop events whose key has no entry
(`df['action'] = df['key'].map(KEY_ACTION_MAP); df = df[df['action'].notna()]`). -/
def normalizeEvents (events : List InputEvent) : List NormEvent :=
  events.filterMap fun e =>
    (KEY_ACTION_MAP.lookup e.key).map fun a => ⟨e.kind, e.key, a, e.t⟩

/-- Insert into a sorted list, before the first element not below `a`
(keeps the insertion stable for equal sort keys). -/
def insertSorted (le : α → α → Bool) (a : α) : List α → List α
  | [] => [a]
  | b :: l => if le a b then a :: b :: l else b :: insertSorted le a l

/-- Stable insertion sort; models `sort_values` (the specification fixes a
stable sort on timestamp ties, and no derived value depends on tie order). -/
def insertionSort (le : α → α → Bool) : List α → List α
  | [] => []
  | a :: l => insertSorted le a (insertionSort le l)

/-- Stable sort of normalized events by timestamp (`sort_values('t_ms')`). -/
def sortByT (l : List NormEvent) : List NormEvent :=
  insertionSort (fun a b => a.t ≤ b.t) l

/-- `df['t_ms'].max()` over a (nonempty, in every reachable use) event list. -/
def maxT (l : List NormEvent) : ℕ :=
  (l.map fun e => e.t).foldl max 0

/-- `np.mean` of a list of millisecond durations, as an exact rational. -/
def meanQ (l : List ℕ) : ℚ :=
  (l.map fun n => (n : ℚ)).sum / l.length

/-- Population variance (the square of `np.std`, which divides by N). -/
def varQ (l : List ℕ) : ℚ :=
  ((l.map fun n => ((n : ℚ) - meanQ l) ^ 2).sum) / l.length

/-- `np.median`: middle element of the sorted list, or the average of the
two middle elements when the length is even. -/
def medianQ (l : List ℕ) : ℚ :=
  let s := insertionSort (fun a b => a ≤ b) l
  if l.length % 2 = 1 then ((s.getD (l.length / 2) 0 : ℕ) : ℚ)
  else (((s.getD (l.length / 2 - 1) 0 : ℕ) : ℚ) + ((s.getD (l.length / 2) 0 : ℕ) : ℚ)) / 2

/-- Worker for `dedupKeys`, carrying the set of keys already emitted. -/
def dedupGo (seen : List String) : List String → List String
  | [] => []
  | k :: rest =>
    if seen.contains k then dedupGo seen rest
    else k :: dedupGo (k :: seen) rest

/-- First-occurrence-order deduplication, modelling `df['key'].unique()`. -/
def dedupKeys (l : List String) : List String := dedupGo [] l

/-- `key_events = df[df['key'] == key].sort_values('t_ms')`. -/
def keyEvents (ev : List NormEvent) (k : String) : List NormEvent :=
  sortByT (ev.filter fun e => e.key == k)

/-- The duration-pairing loop body for one key: for each keydown of the key
(in time order) take the earliest keyup of the same key with a strictly
later timestamp — `keyups[keyups['t_ms'] > down['t_ms']].iloc[0]` — and
record `(action, t_up - t_down)`; a keydown with no later keyup of its key
is skipped.  Nothing marks a keyup as used. -/
def pairsForKey (ev : List NormEvent) (k : String) : List (String × ℕ) :=
  ((keyEvents ev k).filter isPress).filterMap fun d =>
    ((((keyEvents ev k).filter isRelease).filter fun u => d.t < u.t).head?).map
      fun u => (d.action, u.t - d.t)

/-- Steps 4 and 5 of `engineer_features`: iterate the keys of the frame in
first-occurrence order and collect all matched `(action, duration)` pairs. -/
def durationPairs (ev : List NormEvent) : List (String × ℕ) :=
  (dedupKeys (ev.map fun e => e.key)).flatMap (pairsForKey ev)

/-- The flat `durations` list of the source. -/
def durationsOf (ev : List NormEvent) : List ℕ :=
  (durationPairs ev).map fun p => p.2

/-- Is there a release of the same key strictly later than event `d`. -/
def hasLaterRelease (ev : List NormEvent) (d : NormEvent) : Bool :=
  ev.any fun u => u.key == d.key && isRelease u && d.t < u.t

/-- Step 3 percentages: for each action of the fixed list,
`action_counts.get(action, 0) / total_keydowns`. -/
def pctFeatures (keydowns : List NormEvent) : List (String × ℚ) :=
  ACTIONS.map fun a =>
    ("pct_" ++ a,
      (((keydowns.filter fun e => e.action == a).length : ℚ) / (keydowns.length : ℚ)))

/-- Step 4 overall rhythm features: mean, std, median, min, max of the
matched durations, all five zero when no durations exist. -/
def overallRhythm (fsq : ℚ → ℚ) (ds : List ℕ) : List (String × ℚ) :=
  if ds.isEmpty then
    [("overall_duration_mean", 0), ("overall_duration_std", 0),
     ("overall_duration_median", 0), ("overall_duration_min", 0),
     ("overall_duration_max", 0)]
  else
    [("overall_duration_mean", meanQ ds), ("overall_duration_std", fsq (varQ ds)),
     ("overall_duration_median", medianQ ds),
     ("overall_duration_min", ((ds.min?.getD 0 : ℕ) : ℚ)),
     ("overall_duration_max", ((ds.max?.getD 0 : ℕ) : ℚ))]

/-- Step 5 per-action timing features: mean and std of the durations of each
action of the fixed list, 0 and 0 when that action has no matched duration. -/
def actionTimingFeatures (fsq : ℚ → ℚ) (pairs : List (String × ℕ)) : List (String × ℚ) :=
  ACTIONS.flatMap fun a =>
    let ds := ((pairs.filter fun p => p.1 == a).map fun p => p.2)
    if ds.isEmpty then [("mean_" ++ a, 0), ("std_" ++ a, 0)]
    else [("mean_" ++ a, meanQ ds), ("std_" ++ a, fsq (varQ ds))]

/-- Step 6 reindexing: `pd.Series(all_features).reindex(agg_feature_columns,
fill_value=0)` — one output slot per schema name, in schema order; a name
with no statistic becomes 0, a statistic absent from the schema is dropped. -/
def reindexSchema (schema : List String) (stats : List (String × ℚ)) : List ℚ :=
  schema.map fun n => (stats.lookup n).getD 0

/-- The token-emission loop of `create_combo_sentence`: the first argument is
the timestamp of the most recently emitted action token (`prev_time`). -/
def comboGo : Option ℕ → List (String × ℕ) → List String
  | _, [] => []
  | none, (a, t) :: rest => a :: comboGo (some t) rest
  | some p, (a, t) :: rest =>
    if GAP_MS < t - p then breakToken :: a :: comboGo (some t) rest
    else a :: comboGo (some t) rest

/-- Stable sort of `(action, t_ms)` press rows by timestamp. -/
def sortPressByT (l : List (String × ℕ)) : List (String × ℕ) :=
  insertionSort (fun x y => x.2 ≤ y.2) l

/-- The token list built by `create_combo_sentence` from the keydown rows. -/
def comboTokens (presses : List (String × ℕ)) : List String :=
  comboGo none (sortPressByT presses)

/-- `create_combo_sentence`: sort the keydown rows by time, emit each action,
inserting `.` before an action whose gap from the previously emitted token
strictly exceeds 1000 ms, and join with spaces; empty input gives `""`. -/
def create_combo_sentence (presses : List (String × ℕ)) : String :=
  String.intercalate " " (comboTokens presses)

/-- The data computed by a successful run of `engineer_features`: the named
scalar statistics, the schema-aligned aggregate vector, and the combo
sentence handed to the external n-gram vectorizer. -/
structure Features where
  apm : ℚ
  pct : List (String × ℚ)
  overall : List (String × ℚ)
  actionTiming : List (String × ℚ)
  allFeatures : List (String × ℚ)
  aggVector : List ℚ
  comboSentence : String
deriving DecidableEq, Repr

/-- `engineer_features(events)`: the full feature-engineering pipeline.
`fsq` stands for the floating-point square root used by `np.std`;
`minEvents` is the configured `MIN_EVENTS_FOR_PREDICTION`; `schema` is the
`agg_feature_columns` list loaded with the model.  Returns `none` exactly
where the source returns `None` (the insufficient-data gates). -/
def engineer_features (fsq : ℚ → ℚ) (minEvents : ℕ) (schema : List String)
    (events : List InputEvent) : Option Features :=
  if events = [] ∨ events.length < minEvents then none
  else
    let mapped := normalizeEvents events
    if mapped.length < minEvents then none
    else
      let keydowns := mapped.filter isPress
      if keydowns.length < 2 then none
      else
        let duration_s : ℚ := (maxT mapped : ℚ) / 1000
        if duration_s ≤ 0 then none
        else
          let apm : ℚ := ((keydowns.length : ℚ) / duration_s) * 60
          let pct := pctFeatures keydowns
          let pairs := durationPairs mapped
          let overall := overallRhythm fsq (pairs.map fun p => p.2)
          let timing := actionTimingFeatures fsq pairs
          let allF := ("apm", apm) :: (pct ++ overall ++ timing)
          some
            { apm := apm
              pct := pct
              overall := overall
              actionTiming := timing
              allFeatures := allF
              aggVector := reindexSchema schema allF
              comboSentence := create_combo_sentence (keydowns.map fun e => (e.action, e.t)) }

/-- Modelled from the words of the claim and of §3 of the specification
(ActionDuration): pair each press time with the earliest *unmatched* later
release time, consuming a release once it is matched.  Used only to compare
the specified pairing discipline against the implemented one. -/
def specMatchKey : List ℕ → List ℕ → List ℕ
  | [], _ => []
  | p :: ps, rs =>
    match (rs.filter fun r => p < r).head? with
    | none => specMatchKey ps rs
    | some r => (r - p) :: specMatchKey ps (rs.erase r)

/-- Modelled from the words of the claim: per-key duration pairing in which
each Press consumes the earliest unmatched strictly later Release. -/
def specUnmatchedPairing (ev : List NormEvent) : List ℕ :=
  (dedupKeys (ev.map fun e => e.key)).flatMap fun k =>
    specMatchKey (((keyEvents ev k).filter isPress).map fun e => e.t)
      (((keyEvents ev k).filter isRelease).map fun e => e.t)

/-- Spec-words recursion for the tokenizer tail: before each action token,
insert one break when the gap from the previous token strictly exceeds the
threshold. -/
def comboSpecGo : ℕ → List (String × ℕ) → List String
  | _, [] => []
  | p, (a, t) :: rest =>
    (if GAP_MS < t - p then [breakToken] else []) ++ a :: comboSpecGo t rest

/-- Spec-words formulation of the tokenizer on a time-ordered press list:
emit every action in order, with single breaks at the large gaps. -/
def comboSpec : List (String × ℕ) → List String
  | [] => []
  | (a, t) :: rest => a :: comboSpecGo t rest

/-- Modelled from the words of the claim: the timestamp of the earliest
strictly later Release of the same key as `d`, over the whole event list. -/
def minLaterReleaseT (ev : List NormEvent) (d : NormEvent) : Option ℕ :=
  ((ev.filter fun u => u.key == d.key && isRelease u && d.t < u.t).map fun u => u.t).min?

/-- A trivial stand-in for the floating-point square root, used to
instantiate theorems whose stated content does not involve the
standard-deviation slots. -/
def fsqZero : ℚ → ℚ := fun _ => 0

/-- A one-column schema used to instantiate schema-generic theorems. -/
def demoSchema : List String := ["apm"]

/-- The end-to-end scenario of the specification, with raw keys present in
`KEY_ACTION_MAP` (left arrow, `f`, space). -/
def evScenario : List InputEvent :=
  [⟨.press, "Key.left", 0⟩, ⟨.release, "Key.left", 50⟩,
   ⟨.press, "f", 100⟩, ⟨.release, "f", 140⟩,
   ⟨.press, "Key.space", 300⟩, ⟨.release, "Key.space", 340⟩]

/-- The end-to-end scenario with the literal raw key strings of the claim
text; none of `left`, `z`, `jump` is a key of `KEY_ACTION_MAP`. -/
def evLiteral : List InputEvent :=
  [⟨.press, "left", 0⟩, ⟨.release, "left", 50⟩,
   ⟨.press, "z", 100⟩, ⟨.release, "z", 140⟩,
   ⟨.press, "jump", 300⟩, ⟨.release, "jump", 340⟩]

/-- Fifteen events of key `f`, only two of which are presses: the total
event count meets `MIN_EVENTS_FOR_PREDICTION` while the press count is far
below it. -/
def evFewPresses : List InputEvent :=
  [⟨.press, "f", 0⟩, ⟨.press, "f", 100⟩] ++
    ((List.range 13).map fun i => ⟨.release, "f", 200 + 10 * i⟩)

/-- A snapshot whose events all carry timestamp zero. -/
def evZeroSpan : List InputEvent := [⟨.press, "f", 0⟩, ⟨.release, "f", 0⟩]

/-- Two overlapping presses of key `z` followed by a single shared release. -/
def evOverlap : List NormEvent :=
  [⟨.press, "z", "z", 0⟩, ⟨.press, "z", "z", 10⟩, ⟨.release, "z", "z", 100⟩]

/-- Two overlapping presses of key `x` and one shared release. -/
def evOverlapX : List NormEvent :=
  [⟨.press, "x", "ex_move", 0⟩, ⟨.press, "x", "ex_move", 50⟩,
   ⟨.release, "x", "ex_move", 200⟩]

/-- The press/release pair of key `z` from the claim text. -/
def evZPair : List NormEvent :=
  [⟨.press, "z", "z", 100⟩, ⟨.release, "z", "z", 180⟩]

/-- A press of key `z` with no later release. -/
def evZLone : List NormEvent := [⟨.press, "z", "z", 100⟩]

/-- The tokenizer example: presses at 0, 200, 1500, 1600 ms. -/
def c5presses : List (String × ℕ) :=
  [("jump", 0), ("dash", 200), ("shoot", 1500), ("jump", 1600)]

/-- Inserting into a list is a permutation of consing. -/
lemma perm_insertSorted {α : Type} (le : α → α → Bool) (a : α) :
    ∀ l : List α, (insertSorted le a l).Perm (a :: l)
  | [] => List.Perm.refl _
  | b :: l => by
    simp only [insertSorted]
    split
    · exact List.Perm.refl _
    · exact ((perm_insertSorted le a l).cons b).trans (List.Perm.swap a b l)

/-- Insertion sort permutes its input. -/
lemma perm_insertionSort {α : Type} (le : α → α → Bool) :
    ∀ l : List α, (insertionSort le l).Perm l
  | [] => List.Perm.refl _
  | a :: l => (perm_insertSorted le a _).trans ((perm_insertionSort le l).cons a)

/-- Membership in an insertion. -/
lemma mem_insertSorted {α : Type} {le : α → α → Bool} {a x : α} {l : List α} :
    x ∈ insertSorted le a l ↔ x = a ∨ x ∈ l := by
  rw [(perm_insertSorted le a l).mem_iff, List.mem_cons]

/-- Inserting into a sorted list keeps it sorted, for a total transitive
Boolean order. -/
lemma pairwise_insertSorted {α : Type} (le : α → α → Bool)
    (htot : ∀ a b, le a b = true ∨ le b a = true)
    (htrans : ∀ a b c, le a b = true → le b c = true → le a c = true) (a : α) :
    ∀ l : List α, List.Pairwise (fun x y => le x y = true) l →
      List.Pairwise (fun x y => le x y = true) (insertSorted le a l)
  | [], _ => by simp [insertSorted]
  | b :: l, h => by
    simp only [insertSorted]
    by_cases hab : le a b = true
    · rw [if_pos hab]
      refine List.Pairwise.cons ?_ h
      intro x hx
      rcases List.mem_cons.mp hx with rfl | hx
      · exact hab
      · exact htrans a b x hab ((List.pairwise_cons.mp h).1 x hx)
    · rw [if_neg hab]
      have hba : le b a = true := (htot a b).resolve_left hab
      refine List.Pairwise.cons ?_
        (pairwise_insertSorted le htot htrans a l (List.pairwise_cons.mp h).2)
      intro x hx
      rcases mem_insertSorted.mp hx with rfl | hx
      · exact hba
      · exact (List.pairwise_cons.mp h).1 x hx

/-- Insertion sort sorts, for a total transitive Boolean order. -/
lemma pairwise_insertionSort {α : Type} (le : α → α → Bool)
    (htot : ∀ a b, le a b = true ∨ le b a = true)
    (htrans : ∀ a b c, le a b = true → le b c = true → le a c = true) :
    ∀ l : List α, List.Pairwise (fun x y => le x y = true) (insertionSort le l)
  | [] => List.Pairwise.nil
  | a :: l =>
    pairwise_insertSorted le htot htrans a _ (pairwise_insertionSort le htot htrans l)

/-- `sortByT` permutes its input. -/
lemma sortByT_perm (l : List NormEvent) : (sortByT l).Perm l :=
  perm_insertionSort _ l

/-- `sortByT` sorts by timestamp. -/
lemma sortByT_pairwise (l : List NormEvent) :
    List.Pairwise (fun a b : NormEvent => a.t ≤ b.t) (sortByT l) := by
  have h := pairwise_insertionSort (fun a b : NormEvent => decide (a.t ≤ b.t))
    (fun a b => by rcases Nat.le_total a.t b.t with h | h <;> simp [h])
    (fun a b c hab hbc => by
      simp only [decide_eq_true_eq] at hab hbc ⊢
      exact le_trans hab hbc) l
  exact h.imp (by simp)

/-- Membership after `dedupGo`: in the remaining input and not yet seen. -/
lemma mem_dedupGo (x : String) : ∀ (l seen : List String),
    x ∈ dedupGo seen l ↔ x ∈ l ∧ x ∉ seen
  | [], seen => by simp [dedupGo]
  | k :: rest, seen => by
    simp only [dedupGo]
    by_cases hk : seen.contains k
    · rw [if_pos hk]
      rw [mem_dedupGo x rest seen]
      have hkseen : k ∈ seen := by simpa using hk
      constructor
      · rintro ⟨h1, h2⟩
        exact ⟨List.mem_cons_of_mem _ h1, h2⟩
      · rintro ⟨h1, h2⟩
        rcases List.mem_cons.mp h1 with rfl | h1
        · exact absurd hkseen h2
        · exact ⟨h1, h2⟩
    · rw [if_neg hk]
      constructor
      · intro hx
        rcases List.mem_cons.mp hx with rfl | hx
        · exact ⟨List.mem_cons_self _ _, by simpa using hk⟩
        · have h := (mem_dedupGo x rest (k :: seen)).mp hx
          exact ⟨List.mem_cons_of_mem _ h.1, fun hs => h.2 (List.mem_cons_of_mem _ hs)⟩
      · rintro ⟨h1, h2⟩
        rcases List.mem_cons.mp h1 with rfl | h1
        · exact List.mem_cons_self _ _
        · by_cases hxk : x = k
          · subst hxk
            exact List.mem_cons_self _ _
          · refine List.mem_cons_of_mem _ ((mem_dedupGo x rest (k :: seen)).mpr ⟨h1, ?_⟩)
            intro hs
            rcases List.mem_cons.mp hs with h | h
            · exact hxk h
            · exact h2 h

/-- `dedupGo` emits no duplicates. -/
lemma nodup_dedupGo : ∀ (l seen : List String), (dedupGo seen l).Nodup
  | [], _ => by simp [dedupGo]
  | k :: rest, seen => by
    simp only [dedupGo]
    by_cases hk : seen.contains k
    · rw [if_pos hk]
      exact nodup_dedupGo rest seen
    · rw [if_neg hk]
      refine List.nodup_cons.mpr ⟨?_, nodup_dedupGo rest (k :: seen)⟩
      intro hmem
      exact ((mem_dedupGo k rest (k :: seen)).mp hmem).2 (List.mem_cons_self _ _)

/-- Membership in the deduplicated key list. -/
lemma mem_dedupKeys {x : String} {l : List String} : x ∈ dedupKeys l ↔ x ∈ l := by
  simp [dedupKeys, mem_dedupGo]

/-- The deduplicated key list has no duplicates. -/
lemma nodup_dedupKeys (l : List String) : (dedupKeys l).Nodup :=
  nodup_dedupGo l []

/-- The length of a `filterMap` counts the inputs mapped to `some`. -/
lemma length_filterMap_eq_countP {α β : Type} (f : α → Option β) :
    ∀ l : List α, (l.filterMap f).length = l.countP fun a => (f a).isSome
  | [] => rfl
  | a :: l => by
    rw [List.filterMap_cons, List.countP_cons]
    cases hfa : f a <;>
      simp [hfa, length_filterMap_eq_countP f l]

/-- The zero-duration gate in rational arithmetic reduces to a zero span. -/
lemma span_gate_iff (n : ℕ) : ((n : ℚ) / 1000 ≤ 0) ↔ n = 0 := by
  rw [div_le_iff₀ (by norm_num : (0:ℚ) < 1000)]
  simp

/-- When every insufficient-data gate passes, `engineer_features` produces
the feature record spelled out over its input. -/
lemma engineer_features_some (fsq : ℚ → ℚ) (minEvents : ℕ) (schema : List String)
    (events : List InputEvent)
    (h1 : ¬(events = [] ∨ events.length < minEvents))
    (h2 : ¬((normalizeEvents events).length < minEvents))
    (h3 : ¬(((normalizeEvents events).filter isPress).length < 2))
    (h4 : ¬((maxT (normalizeEvents events) : ℚ) / 1000 ≤ 0)) :
    engineer_features fsq minEvents schema events =
      some
        { apm := ((((normalizeEvents events).filter isPress).length : ℚ) /
              ((maxT (normalizeEvents events) : ℚ) / 1000)) * 60
          pct := pctFeatures ((normalizeEvents events).filter isPress)
          overall := overallRhythm fsq
            ((durationPairs (normalizeEvents events)).map fun p => p.2)
          actionTiming := actionTimingFeatures fsq (durationPairs (normalizeEvents events))
          allFeatures :=
            ("apm", ((((normalizeEvents events).filter isPress).length : ℚ) /
                ((maxT (normalizeEvents events) : ℚ) / 1000)) * 60) ::
              (pctFeatures ((normalizeEvents events).filter isPress) ++
                overallRhythm fsq
                  ((durationPairs (normalizeEvents events)).map fun p => p.2) ++
                actionTimingFeatures fsq (durationPairs (normalizeEvents events)))
          aggVector := reindexSchema schema
            (("apm", ((((normalizeEvents events).filter isPress).length : ℚ) /
                ((maxT (normalizeEvents events) : ℚ) / 1000)) * 60) ::
              (pctFeatures ((normalizeEvents events).filter isPress) ++
                overallRhythm fsq
                  ((durationPairs (normalizeEvents events)).map fun p => p.2) ++
                actionTimingFeatures fsq (durationPairs (normalizeEvents events))))
          comboSentence := create_combo_sentence
            (((normalizeEvents events).filter isPress).map fun e => (e.action, e.t)) } := by
  simp only [engineer_features]
  rw [if_neg h1, if_neg h2, if_neg h3, if_neg h4]

/-- A successful run implies that every insufficient-data gate passed. -/
lemma engineer_features_gates (fsq : ℚ → ℚ) (minEvents : ℕ) (schema : List String)
    (events : List InputEvent)
    (h : (engineer_features fsq minEvents schema events).isSome = true) :
    ¬(events = [] ∨ events.length < minEvents) ∧
    ¬((normalizeEvents events).length < minEvents) ∧
    ¬(((normalizeEvents events).filter isPress).length < 2) ∧
    ¬((maxT (normalizeEvents events) : ℚ) / 1000 ≤ 0) := by
  simp only [engineer_features] at h
  split_ifs at h with h1 h2 h3 h4
  · exact absurd h (by simp)
  · exact absurd h (by simp)
  · exact absurd h (by simp)
  · exact absurd h (by simp)
  · exact ⟨h1, h2, h3, h4⟩

/-- Too few events (raw or mapped) or fewer than two presses give `none`. -/
lemma engineer_features_none_of_gate (fsq : ℚ → ℚ) (minEvents : ℕ) (schema : List String)
    (events : List InputEvent)
    (h : events.length < minEvents ∨ (normalizeEvents events).length < minEvents ∨
      ((normalizeEvents events).filter isPress).length < 2) :
    engineer_features fsq minEvents schema events = none := by
  simp only [engineer_features]
  split_ifs with h1 h2 h3 h4 <;> try rfl
  exact absurd h (by tauto)

/-- A zero time span gives `none`. -/
lemma engineer_features_none_of_zero_span (fsq : ℚ → ℚ) (minEvents : ℕ)
    (schema : List String) (events : List InputEvent)
    (h : maxT (normalizeEvents events) = 0) :
    engineer_features fsq minEvents schema events = none := by
  simp only [engineer_features]
  split_ifs with h1 h2 h3 h4 <;> try rfl
  exact absurd ((span_gate_iff _).mpr h) h4

/-- Indicator sum over a list not containing `a` is zero. -/
lemma sum_indicator_of_not_mem (a : String) : ∀ ks : List String, a ∉ ks →
    (ks.map fun k => if a = k then (1:ℕ) else 0).sum = 0
  | [], _ => rfl
  | k :: ks, h => by
    have hak : a ≠ k := fun heq => h (heq ▸ List.mem_cons_self _ _)
    have hrest : a ∉ ks := fun hm => h (List.mem_cons_of_mem _ hm)
    simp [hak, sum_indicator_of_not_mem a ks hrest]

/-- Indicator sum over a duplicate-free list containing `a` is one. -/
lemma sum_indicator_of_mem (a : String) : ∀ ks : List String, ks.Nodup → a ∈ ks →
    (ks.map fun k => if a = k then (1:ℕ) else 0).sum = 1
  | [], _, hm => absurd hm (List.not_mem_nil a)
  | k :: ks, hnd, hm => by
    by_cases hak : a = k
    · subst hak
      have hnm : a ∉ ks := (List.nodup_cons.mp hnd).1
      simp [sum_indicator_of_not_mem a ks hnm]
    · have hm' : a ∈ ks := by
        rcases List.mem_cons.mp hm with h | h
        · exact absurd h hak
        · exact h
      simp [hak, sum_indicator_of_mem a ks (List.nodup_cons.mp hnd).2 hm']

/-- Counting a predicate by first partitioning on a string-valued key:
summing the per-key counts over any duplicate-free key list covering the
satisfying elements recovers the total count. -/
lemma sum_countP_partition {α : Type} (p : α → Bool) (keyf : α → String)
    (ks : List String) (hnd : ks.Nodup) :
    ∀ l : List α, (∀ e ∈ l, p e = true → keyf e ∈ ks) →
      (ks.map fun k => l.countP fun e => p e && (keyf e == k)).sum = l.countP p
  | [], _ => by simp
  | e :: l, hcov => by
    have hrest := sum_countP_partition p keyf ks hnd l
      fun x hx => hcov x (List.mem_cons_of_mem _ hx)
    simp only [List.countP_cons]
    rw [show (ks.map fun k =>
          (l.countP fun x => p x && (keyf x == k)) +
            if (p e && (keyf e == k)) = true then 1 else 0).sum =
        (ks.map fun k => l.countP fun x => p x && (keyf x == k)).sum +
          (ks.map fun k => if (p e && (keyf e == k)) = true then 1 else 0).sum
      from List.sum_map_add]
    rw [hrest]
    congr 1
    by_cases hp : p e = true
    · have heach : ∀ k, (if (p e && (keyf e == k)) = true then (1:ℕ) else 0) =
          if keyf e = k then 1 else 0 := by
        intro k
        simp [hp]
      simp only [heach]
      rw [if_pos hp]
      exact sum_indicator_of_mem (keyf e) ks hnd (hcov e (List.mem_cons_self _ _) hp)
    · have heach : ∀ k, (if (p e && (keyf e == k)) = true then (1:ℕ) else 0) = 0 := by
        intro k
        simp [hp]
      simp [heach, hp]

/-- A value returned by `List.lookup` occurs among the mapped values. -/
lemma lookup_val_mem : ∀ (l : List (String × String)) (k v : String),
    l.lookup k = some v → v ∈ l.map Prod.snd
  | [], _, _, h => by simp [List.lookup] at h
  | (k0, v0) :: l, k, v, h => by
    by_cases hk : (k == k0) = true
    · simp only [List.lookup, hk] at h
      simp only [Option.some.injEq] at h
      subst h
      exact List.mem_cons_self _ _
    · simp only [List.lookup] at h
      rw [Bool.not_eq_true] at hk
      rw [hk] at h
      exact List.mem_cons_of_mem _ (lookup_val_mem l k v h)

/-- Every normalized event carries an action from the fixed action list. -/
lemma action_mem_ACTIONS {events : List InputEvent} {e : NormEvent}
    (he : e ∈ normalizeEvents events) : e.action ∈ ACTIONS := by
  rcases List.mem_filterMap.mp he with ⟨x, _, hfx⟩
  rcases Option.map_eq_some'.mp hfx with ⟨a, ha, hrec⟩
  have hv : a ∈ KEY_ACTION_MAP.map Prod.snd := lookup_val_mem _ _ _ ha
  have hact : e.action = a := by
    rw [← hrec]
  rw [hact]
  have hv' : a ∈ (["jump", "shoot", "dash", "ex_move", "lock", "up", "down",
      "left", "right"] : List String) := by
    simpa [KEY_ACTION_MAP] using hv
  simp only [ACTIONS, List.mem_cons, List.mem_singleton] at hv' ⊢
  tauto

/-- Membership in a per-key event group. -/
lemma mem_keyEvents_iff {ev : List NormEvent} {k : String} {u : NormEvent} :
    u ∈ keyEvents ev k ↔ u ∈ ev ∧ u.key = k := by
  rw [keyEvents, (sortByT_perm _).mem_iff, List.mem_filter]
  simp

/-- Unfolding of the later-same-key-release test. -/
lemma hasLaterRelease_iff {ev : List NormEvent} {d : NormEvent} :
    hasLaterRelease ev d = true ↔
      ∃ u ∈ ev, u.key = d.key ∧ isRelease u = true ∧ d.t < u.t := by
  simp [hasLaterRelease, List.any_eq_true, Bool.and_eq_true, and_assoc]

/-- The number of pairs matched for one key counts the presses of that key
having some strictly later same-key release. -/
lemma length_pairsForKey (ev : List NormEvent) (k : String) :
    (pairsForKey ev k).length =
      ev.countP fun e => (isPress e && hasLaterRelease ev e) && (e.key == k) := by
  rw [pairsForKey, length_filterMap_eq_countP]
  have h1 : ((keyEvents ev k).filter isPress).countP
      (fun d => ((((keyEvents ev k).filter isRelease).filter fun u => d.t < u.t).head?.map
        fun u => (d.action, u.t - d.t)).isSome) =
      ((keyEvents ev k).filter isPress).countP (hasLaterRelease ev) := by
    apply List.countP_congr
    intro d hd
    have hdkey : d.key = k := (mem_keyEvents_iff.mp (List.mem_filter.mp hd).1).2
    rcases hcase : (((keyEvents ev k).filter isRelease).filter fun u => d.t < u.t).head?
      with _ | u
    · simp only [hcase, Option.map_none', Option.isSome_none]
      have hnil := List.head?_eq_none_iff.mp hcase
      constructor
      · intro h
        cases h
      · intro h
        exfalso
        rcases hasLaterRelease_iff.mp h with ⟨u, hu, hukey, hurel, hut⟩
        have hmem : u ∈ (((keyEvents ev k).filter isRelease).filter fun v => d.t < v.t) := by
          rw [List.mem_filter]
          refine ⟨?_, by simpa using hut⟩
          rw [List.mem_filter]
          exact ⟨mem_keyEvents_iff.mpr ⟨hu, by rw [hukey, hdkey]⟩, hurel⟩
        rw [hnil] at hmem
        cases hmem
    · simp only [hcase, Option.map_some', Option.isSome_some]
      refine iff_of_true (by trivial) ?_
      have hu : u ∈ (((keyEvents ev k).filter isRelease).filter fun v => d.t < v.t) :=
        List.mem_of_mem_head? (by rw [hcase]; exact rfl)
      rw [List.mem_filter] at hu
      obtain ⟨hu1, hu2⟩ := hu
      rw [List.mem_filter] at hu1
      obtain ⟨hu11, hu12⟩ := hu1
      rw [mem_keyEvents_iff] at hu11
      exact hasLaterRelease_iff.mpr
        ⟨u, hu11.1, by rw [hu11.2, hdkey], hu12, by simpa using hu2⟩
  rw [h1, List.countP_filter, keyEvents, List.Perm.countP_eq _ (sortByT_perm _),
    List.countP_filter]
  apply List.countP_congr
  intro e _
  simp only [Bool.and_eq_true]
  tauto

/-- The total number of matched durations counts the presses that have at
least one strictly later same-key release. -/
lemma length_durationPairs (ev : List NormEvent) :
    (durationPairs ev).length = ev.countP fun e => isPress e && hasLaterRelease ev e := by
  rw [durationPairs, List.length_flatMap]
  have hmap : List.map (List.length ∘ pairsForKey ev) (dedupKeys (ev.map fun e => e.key)) =
      (dedupKeys (ev.map fun e => e.key)).map fun k =>
        ev.countP fun e => (isPress e && hasLaterRelease ev e) && (e.key == k) := by
    apply List.map_congr_left
    intro k _
    exact length_pairsForKey ev k
  rw [hmap]
  exact sum_countP_partition _ _ _ (nodup_dedupKeys _) ev
    (fun e he _ => mem_dedupKeys.mpr (List.mem_map.mpr ⟨e, he, rfl⟩))

/-- For one key group, the implemented pairing picks, for each press,
exactly the earliest strictly later same-key release. -/
lemma pairsForKey_eq_minLater (ev : List NormEvent) (k : String) :
    pairsForKey ev k = ((keyEvents ev k).filter isPress).filterMap fun d =>
      (minLaterReleaseT ev d).map fun tu => (d.action, tu - d.t) := by
  rw [pairsForKey]
  apply List.filterMap_congr
  intro d hd
  have hdkey : d.key = k := (mem_keyEvents_iff.mp (List.mem_filter.mp hd).1).2
  have hperm : (((keyEvents ev k).filter isRelease).filter fun u => d.t < u.t).Perm
      (ev.filter fun u => u.key == d.key && isRelease u && d.t < u.t) := by
    have h1 : (((keyEvents ev k).filter isRelease).filter fun u => d.t < u.t).Perm
        (((ev.filter fun e => e.key == k).filter isRelease).filter fun u => d.t < u.t) :=
      ((sortByT_perm _).filter _).filter _
    refine h1.trans ?_
    rw [List.filter_filter, List.filter_filter]
    rw [List.filter_congr (p := fun u => (decide (d.t < u.t) && isRelease u) && (u.key == k))
      (q := fun u => u.key == d.key && isRelease u && decide (d.t < u.t)) ?_]
    intro u _
    rw [hdkey]
    cases hu1 : u.key == k <;> cases hu2 : isRelease u <;> cases hu3 : decide (d.t < u.t) <;>
      simp [hu1, hu2, hu3]
  have hsorted : List.Pairwise (fun a b : NormEvent => a.t ≤ b.t)
      (((keyEvents ev k).filter isRelease).filter fun u => d.t < u.t) :=
    ((sortByT_pairwise _).filter _).filter _
  rcases hcase : (((keyEvents ev k).filter isRelease).filter fun u => d.t < u.t)
    with _ | ⟨u, rest⟩
  · rw [hcase] at hperm
    have hT : (ev.filter fun u => u.key == d.key && isRelease u && d.t < u.t) = [] := by
      have hlen := hperm.length_eq
      simp only [List.length_nil] at hlen
      exact List.eq_nil_of_length_eq_zero hlen.symm
    rw [hcase, minLaterReleaseT, hT]
    rfl
  · rw [hcase] at hperm hsorted
    have hmin : ((ev.filter fun v => v.key == d.key && isRelease v && d.t < v.t).map
        fun v => v.t).min? = some u.t := by
      rw [List.min?_eq_some_iff']
      constructor
      · exact List.mem_map.mpr ⟨u, hperm.mem_iff.mp (List.mem_cons_self _ _), rfl⟩
      · intro b hb
        rcases List.mem_map.mp hb with ⟨v, hv, rfl⟩
        have hvS : v ∈ u :: rest := hperm.mem_iff.mpr hv
        rcases List.mem_cons.mp hvS with rfl | hvrest
        · exact le_refl _
        · exact (List.pairwise_cons.mp hsorted).1 v hvrest
    rw [hcase, minLaterReleaseT, hmin]
    rfl

/-- The implemented pairing, rephrased: group by key, and pair every press
with the earliest strictly later same-key release, never consuming it. -/
lemma durationPairs_minLater (ev : List NormEvent) :
    durationPairs ev = (dedupKeys (ev.map fun e => e.key)).flatMap fun k =>
      ((keyEvents ev k).filter isPress).filterMap fun d =>
        (minLaterReleaseT ev d).map fun tu => (d.action, tu - d.t) := by
  rw [durationPairs]
  exact List.flatMap_congr fun k _ => pairsForKey_eq_minLater ev k

/-- After the first token, the emission loop agrees with the spec recursion. -/
lemma comboGo_eq_specGo : ∀ (l : List (String × ℕ)) (p : ℕ),
    comboGo (some p) l = comboSpecGo p l
  | [], _ => rfl
  | (a, t) :: rest, p => by
    simp only [comboGo, comboSpecGo]
    by_cases h : GAP_MS < t - p
    · rw [if_pos h, if_pos h]
      simp [comboGo_eq_specGo rest t]
    · rw [if_neg h, if_neg h]
      simp [comboGo_eq_specGo rest t]

/-- The emission loop started with no previous token is the spec recursion. -/
lemma comboGo_none_eq_spec : ∀ l : List (String × ℕ), comboGo none l = comboSpec l
  | [] => rfl
  | (a, t) :: rest => by
    simp only [comboGo, comboSpec]
    rw [comboGo_eq_specGo]

/-- Prefixing an action token preserves the no-adjacent-breaks chain. -/
lemma chain_cons_action {a : String} {X : List String} (ha : a ≠ breakToken)
    (hX : List.Chain' (fun x y => ¬(x = breakToken ∧ y = breakToken)) X) :
    List.Chain' (fun x y => ¬(x = breakToken ∧ y = breakToken)) (a :: X) := by
  rw [List.chain'_cons']
  exact ⟨fun y _ hc => ha hc.1, hX⟩

/-- Prefixing an action token preserves a break-free last token. -/
lemma getLast_cons_action {a : String} {X : List String} (ha : a ≠ breakToken)
    (hX : X.getLast? ≠ some breakToken) : (a :: X).getLast? ≠ some breakToken := by
  rcases hlast : X.getLast? with _ | z
  · rw [List.getLast?_cons, hlast]
    simp [ha]
  · rw [List.getLast?_cons, hlast]
    intro hcontr
    apply hX
    rw [hlast]
    simpa using hcontr

/-- Invariant of the emission loop: tokens never hold two adjacent breaks
and never end in a break, provided no action equals the break token. -/
lemma comboGo_invariant : ∀ (l : List (String × ℕ)), (∀ q ∈ l, q.1 ≠ breakToken) →
    ∀ prev : Option ℕ,
      List.Chain' (fun x y => ¬(x = breakToken ∧ y = breakToken)) (comboGo prev l) ∧
      (comboGo prev l).getLast? ≠ some breakToken
  | [], _, prev => by
    cases prev <;> simp [comboGo]
  | (a, t) :: rest, h, prev => by
    have ha : a ≠ breakToken := h (a, t) (List.mem_cons_self _ _)
    have hrest : ∀ q ∈ rest, q.1 ≠ breakToken := fun q hq => h q (List.mem_cons_of_mem _ hq)
    have IH := comboGo_invariant rest hrest (some t)
    rcases prev with _ | p
    · simp only [comboGo]
      exact ⟨chain_cons_action ha IH.1, getLast_cons_action ha IH.2⟩
    · simp only [comboGo]
      by_cases hgap : GAP_MS < t - p
      · rw [if_pos hgap]
        constructor
        · rw [List.chain'_cons']
          refine ⟨fun y hy hc => ?_, chain_cons_action ha IH.1⟩
          have hya : a = y := by simpa using hy
          exact ha (hya ▸ hc.2)
        · rw [List.getLast?_cons_cons]
          exact getLast_cons_action ha IH.2
      · rw [if_neg hgap]
        exact ⟨chain_cons_action ha IH.1, getLast_cons_action ha IH.2⟩

/-- The token list of `create_combo_sentence` never starts with a break. -/
lemma comboTokens_head {presses : List (String × ℕ)}
    (h : ∀ q ∈ presses, q.1 ≠ breakToken) :
    (comboTokens presses).head? ≠ some breakToken := by
  rw [comboTokens]
  rcases hs : sortPressByT presses with _ | ⟨⟨a, t⟩, rest⟩
  · simp [comboGo]
  · have ha : a ≠ breakToken := by
      refine h (a, t) ?_
      have : (a, t) ∈ sortPressByT presses := by
        rw [hs]
        exact List.mem_cons_self _ _
      exact (perm_insertionSort _ presses).mem_iff.mp this
    simp only [comboGo]
    simpa using ha

/-- Every insufficient-data gate of the end-to-end scenario passes: the
scenario is nonempty and long enough. -/
lemma evScenario_gate1 : ¬(evScenario = [] ∨ evScenario.length < 2) := by decide

/-- The mapped scenario is long enough. -/
lemma evScenario_gate2 : ¬((normalizeEvents evScenario).length < 2) := by decide

/-- The scenario has at least two presses. -/
lemma evScenario_gate3 : ¬(((normalizeEvents evScenario).filter isPress).length < 2) := by
  decide

/-- The scenario spans a positive duration. -/
lemma evScenario_gate4 : ¬((maxT (normalizeEvents evScenario) : ℚ) / 1000 ≤ 0) := by
  rw [span_gate_iff]
  decide

/-- The pipeline produces a vector on the end-to-end scenario. -/
lemma evScenario_isSome (fsq : ℚ → ℚ) :
    (engineer_features fsq 2 demoSchema evScenario).isSome = true := by
  rw [engineer_features_some fsq 2 demoSchema evScenario evScenario_gate1 evScenario_gate2
    evScenario_gate3 evScenario_gate4]
  rfl

/-- C1 (amended): when the total event count (raw or after dropping
unmapped keys) is below the configured threshold, or fewer than two mapped
Press events exist, `engineer_features` returns `None` and no feature
vector reaches the assembler. -/
theorem c1_insufficient_data_gate (fsq : ℚ → ℚ) (minEvents : ℕ) (schema : List String)
    (events : List InputEvent)
    (h : events.length < minEvents ∨ (normalizeEvents events).length < minEvents ∨
      ((normalizeEvents events).filter isPress).length < 2) :
    engineer_features fsq minEvents schema events = none :=
  engineer_features_none_of_gate fsq minEvents schema events h

/-- C1 witness: a two-event snapshot is below the threshold 15 and yields
no vector. -/
theorem c1_gate_witness :
    (evZeroSpan.length < 15 ∨ (normalizeEvents evZeroSpan).length < 15 ∨
      ((normalizeEvents evZeroSpan).filter isPress).length < 2) ∧
    engineer_features fsqZero 15 demoSchema evZeroSpan = none :=
  ⟨by decide, c1_insufficient_data_gate fsqZero 15 demoSchema evZeroSpan (by decide)⟩

/-- C1 counterexample: a snapshot whose Press count (2) is far below the
configured threshold (15) on which `engineer_features` still produces a
vector, because the implemented gate counts all events, not presses. -/
theorem c1_press_count_counterexample :
    ((normalizeEvents evFewPresses).filter isPress).length < MIN_EVENTS_FOR_PREDICTION ∧
    engineer_features fsqZero MIN_EVENTS_FOR_PREDICTION demoSchema evFewPresses ≠ none := by
  constructor
  · decide
  · have h1 : ¬(evFewPresses = [] ∨ evFewPresses.length < MIN_EVENTS_FOR_PREDICTION) := by
      decide
    have h2 : ¬((normalizeEvents evFewPresses).length < MIN_EVENTS_FOR_PREDICTION) := by
      decide
    have h3 : ¬(((normalizeEvents evFewPresses).filter isPress).length < 2) := by decide
    have h4 : ¬((maxT (normalizeEvents evFewPresses) : ℚ) / 1000 ≤ 0) := by
      rw [span_gate_iff]
      decide
    rw [engineer_features_some fsqZero _ _ _ h1 h2 h3 h4]
    simp

/-- C2 (amended): duration pairing groups events by raw key identity and
matches each Press to the earliest strictly later Release of the same key
(`t_release > t_press`, the Release is not consumed by the match); the
`z`-key example yields the single duration 80, and a Press with no
strictly later same-key Release contributes no duration. -/
theorem c2_duration_pairing :
    (∀ ev : List NormEvent,
      durationPairs ev = (dedupKeys (ev.map fun e => e.key)).flatMap fun k =>
        ((keyEvents ev k).filter isPress).filterMap fun d =>
          (minLaterReleaseT ev d).map fun tu => (d.action, tu - d.t)) ∧
    durationsOf evZPair = [80] ∧
    durationsOf evZLone = [] :=
  ⟨durationPairs_minLater, by decide, by decide⟩

/-- C2 counterexample: with two presses of one key before a single release,
the implemented pairing produces two durations where the claimed
earliest-unmatched discipline produces one. -/
theorem c2_unmatched_counterexample :
    durationsOf evOverlap = [100, 90] ∧ specUnmatchedPairing evOverlap = [100] := by
  constructor
  · decide
  · decide

/-- C3: whenever the engine produces a vector, its APM equals
`(pressCount / (maxT/1000)) * 60` computed over the normalized snapshot;
and a zero time span always reports insufficient data. -/
theorem c3_apm_formula (fsq : ℚ → ℚ) (minEvents : ℕ) (schema : List String)
    (events : List InputEvent) :
    ((engineer_features fsq minEvents schema events).isSome = true →
      (engineer_features fsq minEvents schema events).map Features.apm =
        some (((((normalizeEvents events).filter isPress).length : ℚ) /
          ((maxT (normalizeEvents events) : ℚ) / 1000)) * 60)) ∧
    (maxT (normalizeEvents events) = 0 →
      engineer_features fsq minEvents schema events = none) := by
  constructor
  · intro h
    obtain ⟨h1, h2, h3, h4⟩ := engineer_features_gates fsq minEvents schema events h
    rw [engineer_features_some fsq minEvents schema events h1 h2 h3 h4]
    rfl
  · exact engineer_features_none_of_zero_span fsq minEvents schema events

/-- C3 witness: the APM formula instantiated on the end-to-end scenario,
and the zero-span snapshot yielding no vector. -/
theorem c3_apm_witness :
    (engineer_features fsqZero 2 demoSchema evScenario).map Features.apm =
      some (((((normalizeEvents evScenario).filter isPress).length : ℚ) /
        ((maxT (normalizeEvents evScenario) : ℚ) / 1000)) * 60) ∧
    engineer_features fsqZero 2 demoSchema evZeroSpan = none :=
  ⟨(c3_apm_formula fsqZero 2 demoSchema evScenario).1 (evScenario_isSome fsqZero),
   (c3_apm_formula fsqZero 2 demoSchema evZeroSpan).2 (by decide)⟩

/-- C4: whenever the engine produces a vector, the percentage slots are
`count(Press, action) / count(Press, all)` for every action of the fixed
nine-action list (zero-press actions included as 0), each percentage lies
in the unit interval, and the nine percentages sum to exactly 1. -/
theorem c4_action_percentages (fsq : ℚ → ℚ) (minEvents : ℕ) (schema : List String)
    (events : List InputEvent)
    (h : (engineer_features fsq minEvents schema events).isSome = true) :
    (engineer_features fsq minEvents schema events).elim [] Features.pct =
      (ACTIONS.map fun a =>
        ("pct_" ++ a,
          ((((normalizeEvents events).filter isPress).filter fun e =>
            e.action == a).length : ℚ) /
            (((normalizeEvents events).filter isPress).length : ℚ))) ∧
    (∀ q ∈ (engineer_features fsq minEvents schema events).elim [] Features.pct,
      0 ≤ q.2 ∧ q.2 ≤ 1) ∧
    (((engineer_features fsq minEvents schema events).elim [] Features.pct).map
      (fun q => q.2)).sum = 1 := by
  obtain ⟨h1, h2, h3, h4⟩ := engineer_features_gates fsq minEvents schema events h
  rw [engineer_features_some fsq minEvents schema events h1 h2 h3 h4]
  simp only [Option.elim]
  have hNpos : (0:ℚ) < (((normalizeEvents events).filter isPress).length : ℚ) := by
    have hp : 0 < ((normalizeEvents events).filter isPress).length := by omega
    exact_mod_cast hp
  refine ⟨rfl, ?_, ?_⟩
  · intro q hq
    rw [pctFeatures] at hq
    rcases List.mem_map.mp hq with ⟨a, _, rfl⟩
    constructor
    · exact div_nonneg (Nat.cast_nonneg _) (le_of_lt hNpos)
    · rw [div_le_one hNpos]
      exact_mod_cast List.length_filter_le _ _
  · have hnat : (ACTIONS.map fun a => (((normalizeEvents events).filter isPress).filter
        fun e => e.action == a).length).sum =
        ((normalizeEvents events).filter isPress).length := by
      have hpart := sum_countP_partition (fun _ => true) (fun e => e.action) ACTIONS
        (by decide) ((normalizeEvents events).filter isPress)
        (fun e he _ => action_mem_ACTIONS (List.mem_of_mem_filter he))
      calc (ACTIONS.map fun a => ((((normalizeEvents events).filter isPress).filter
            fun e => e.action == a).length)).sum
          = (ACTIONS.map fun a => ((normalizeEvents events).filter isPress).countP
            fun e => (fun _ => true) e && (e.action == a)).sum := by
            apply congrArg
            apply List.map_congr_left
            intro a _
            rw [← List.countP_eq_length_filter]
            apply List.countP_congr
            intro e _
            simp
        _ = ((normalizeEvents events).filter isPress).countP fun _ => true := hpart
        _ = ((normalizeEvents events).filter isPress).length := by
            simp
    rw [pctFeatures, List.map_map]
    have hcomp : ((fun q : String × ℚ => q.2) ∘ fun a =>
        ("pct_" ++ a,
          ((((normalizeEvents events).filter isPress).filter fun e =>
            e.action == a).length : ℚ) /
            (((normalizeEvents events).filter isPress).length : ℚ))) =
        fun a => ((((normalizeEvents events).filter isPress).filter fun e =>
            e.action == a).length : ℚ) /
            (((normalizeEvents events).filter isPress).length : ℚ) := rfl
    rw [hcomp]
    simp only [div_eq_mul_inv]
    rw [List.sum_map_mul_right]
    have hsum : (ACTIONS.map fun a => ((((normalizeEvents events).filter isPress).filter
        fun e => e.action == a).length : ℚ)).sum =
        (((normalizeEvents events).filter isPress).length : ℚ) := by
      calc (ACTIONS.map fun a => ((((normalizeEvents events).filter isPress).filter
            fun e => e.action == a).length : ℚ)).sum
          = ((ACTIONS.map fun a => (((normalizeEvents events).filter isPress).filter
            fun e => e.action == a).length).map fun n : ℕ => (n:ℚ)).sum := by
            rw [List.map_map]
            rfl
        _ = (((ACTIONS.map fun a => (((normalizeEvents events).filter isPress).filter
            fun e => e.action == a).length).sum : ℕ) : ℚ) :=
            (Nat.cast_list_sum _).symm
        _ = (((normalizeEvents events).filter isPress).length : ℚ) := by
            rw [hnat]
    rw [hsum]
    exact mul_inv_cancel₀ (ne_of_gt hNpos)

/-- C4 witness: the percentage properties instantiated on the end-to-end
scenario. -/
theorem c4_pct_witness :
    (engineer_features fsqZero 2 demoSchema evScenario).elim [] Features.pct =
      (ACTIONS.map fun a =>
        ("pct_" ++ a,
          ((((normalizeEvents evScenario).filter isPress).filter fun e =>
            e.action == a).length : ℚ) /
            (((normalizeEvents evScenario).filter isPress).length : ℚ))) ∧
    (∀ q ∈ (engineer_features fsqZero 2 demoSchema evScenario).elim [] Features.pct,
      0 ≤ q.2 ∧ q.2 ≤ 1) ∧
    (((engineer_features fsqZero 2 demoSchema evScenario).elim [] Features.pct).map
      (fun q => q.2)).sum = 1 :=
  c4_action_percentages fsqZero 2 demoSchema evScenario (evScenario_isSome fsqZero)

/-- C5: the tokenizer emits every action in timestamp order and inserts one
break token exactly at the strictly-greater-than-1000 ms gaps (the break
token of the program is `.`); empty input yields the empty sentence, and
the example presses yield `jump dash . shoot jump`. -/
theorem c5_sequence_tokenizer :
    (∀ presses : List (String × ℕ), comboTokens presses = comboSpec (sortPressByT presses)) ∧
    create_combo_sentence [] = "" ∧
    comboTokens c5presses = ["jump", "dash", breakToken, "shoot", "jump"] ∧
    create_combo_sentence c5presses = "jump dash . shoot jump" := by
  refine ⟨fun presses => comboGo_none_eq_spec _, rfl, by decide, by decide⟩

/-- C6: the assembled scalar sub-vector always has exactly the schema
length, schema slots take the looked-up statistic defaulting to 0 (so
statistics absent from the schema are dropped and schema slots with no
statistic are zero-filled), and every produced aggregate vector has the
schema length. -/
theorem c6_schema_alignment :
    (∀ (schema : List String) (stats : List (String × ℚ)),
      (reindexSchema schema stats).length = schema.length ∧
      ∀ i : ℕ, (reindexSchema schema stats)[i]? =
        (schema[i]?).map fun n => (stats.lookup n).getD 0) ∧
    (∀ (fsq : ℚ → ℚ) (minEvents : ℕ) (schema : List String) (events : List InputEvent),
      (engineer_features fsq minEvents schema events).isSome = true →
      (engineer_features fsq minEvents schema events).map (fun f => f.aggVector.length) =
        some schema.length) := by
  constructor
  · intro schema stats
    constructor
    · exact List.length_map _ _
    · intro i
      rw [reindexSchema, List.getElem?_map]
  · intro fsq minEvents schema events h
    obtain ⟨h1, h2, h3, h4⟩ := engineer_features_gates fsq minEvents schema events h
    rw [engineer_features_some fsq minEvents schema events h1 h2 h3 h4]
    simp only [Option.map_some', Option.some.injEq]
    exact List.length_map _ _

/-- C6 witness: instantiations of the reindexing properties, including a
dropped statistic and a zero-filled slot, and of the pipeline shape. -/
theorem c6_schema_witness :
    (reindexSchema ["apm", "missing"] [("apm", 5), ("extra", 7)]).length = 2 ∧
    (reindexSchema ["apm", "missing"] [("apm", (5:ℚ)), ("extra", 7)])[1]? =
      ((["apm", "missing"] : List String)[1]?).map
        (fun n => (([("apm", (5:ℚ)), ("extra", 7)]).lookup n).getD 0) ∧
    (engineer_features fsqZero 2 demoSchema evScenario).map (fun f => f.aggVector.length) =
      some demoSchema.length := by
  refine ⟨?_, ?_, ?_⟩
  · exact (c6_schema_alignment.1 ["apm", "missing"] [("apm", 5), ("extra", 7)]).1
  · exact (c6_schema_alignment.1 ["apm", "missing"] [("apm", 5), ("extra", 7)]).2 1
  · exact c6_schema_alignment.2 fsqZero 2 demoSchema evScenario (evScenario_isSome fsqZero)

/-- C8: the statistics engine is a pure function of its input snapshot: two
runs on identical snapshots (same square root, threshold and schema) give
identical output. -/
theorem c8_deterministic (fsq : ℚ → ℚ) (minEvents : ℕ) (schema : List String)
    (ev1 ev2 : List InputEvent) (h : ev1 = ev2) :
    engineer_features fsq minEvents schema ev1 =
      engineer_features fsq minEvents schema ev2 := by
  rw [h]

/-- C8 witness: two runs on the identical scenario snapshot agree. -/
theorem c8_det_witness :
    evScenario = evScenario ∧
    engineer_features fsqZero 2 demoSchema evScenario =
      engineer_features fsqZero 2 demoSchema evScenario :=
  ⟨rfl, c8_deterministic fsqZero 2 demoSchema evScenario evScenario rfl⟩

/-- C9: a Release is never consumed by a match, so the number of matched
durations equals the number of Press events having at least one strictly
later same-key Release, and one Release can serve several overlapping
presses: the `x`-key overlap yields the two durations 200 and 150 from a
single release. -/
theorem c9_release_not_consumed :
    (∀ ev : List NormEvent, (durationsOf ev).length =
      ev.countP fun e => isPress e && hasLaterRelease ev e) ∧
    durationsOf evOverlapX = [200, 150] := by
  constructor
  · intro ev
    rw [durationsOf, List.length_map]
    exact length_durationPairs ev
  · decide

/-- C10: the combo token list never starts with the break token, never ends
with it, and never holds two adjacent break tokens, for any press rows
whose actions differ from the break token. -/
theorem c10_break_token_position (presses : List (String × ℕ))
    (h : ∀ q ∈ presses, q.1 ≠ breakToken) :
    (comboTokens presses).head? ≠ some breakToken ∧
    (comboTokens presses).getLast? ≠ some breakToken ∧
    List.Chain' (fun x y => ¬(x = breakToken ∧ y = breakToken)) (comboTokens presses) := by
  have hsorted : ∀ q ∈ sortPressByT presses, q.1 ≠ breakToken := fun q hq =>
    h q ((perm_insertionSort _ presses).mem_iff.mp hq)
  have hinv := comboGo_invariant (sortPressByT presses) hsorted none
  exact ⟨comboTokens_head h, hinv.2, hinv.1⟩

/-- C10 witness: the break-position properties on the example presses. -/
theorem c10_break_witness :
    (comboTokens c5presses).head? ≠ some breakToken ∧
    (comboTokens c5presses).getLast? ≠ some breakToken ∧
    List.Chain' (fun x y => ¬(x = breakToken ∧ y = breakToken)) (comboTokens c5presses) :=
  c10_break_token_position c5presses (by decide)

/-- Literal form of the built percentage feature name for `dash`. -/
lemma pct_name_dash : ("pct_" ++ "dash" : String) = "pct_dash" := rfl

/-- Literal form of the built percentage feature name for `down`. -/
lemma pct_name_down : ("pct_" ++ "down" : String) = "pct_down" := rfl

/-- Literal form of the built percentage feature name for `ex_move`. -/
lemma pct_name_ex_move : ("pct_" ++ "ex_move" : String) = "pct_ex_move" := rfl

/-- Literal form of the built percentage feature name for `jump`. -/
lemma pct_name_jump : ("pct_" ++ "jump" : String) = "pct_jump" := rfl

/-- Literal form of the built percentage feature name for `left`. -/
lemma pct_name_left : ("pct_" ++ "left" : String) = "pct_left" := rfl

/-- Literal form of the built percentage feature name for `lock`. -/
lemma pct_name_lock : ("pct_" ++ "lock" : String) = "pct_lock" := rfl

/-- Literal form of the built percentage feature name for `right`. -/
lemma pct_name_right : ("pct_" ++ "right" : String) = "pct_right" := rfl

/-- Literal form of the built percentage feature name for `shoot`. -/
lemma pct_name_shoot : ("pct_" ++ "shoot" : String) = "pct_shoot" := rfl

/-- Literal form of the built percentage feature name for `up`. -/
lemma pct_name_up : ("pct_" ++ "up" : String) = "pct_up" := rfl

/-- C7 counterexample: on the literal event list of the claim the raw keys
`left`, `z`, `jump` are absent from `KEY_ACTION_MAP`, every event is
dropped by normalization, and the pipeline reports insufficient data
instead of the claimed APM and percentages. -/
theorem c7_literal_keys_counterexample :
    engineer_features fsqZero 2 demoSchema evLiteral = none := by
  apply engineer_features_none_of_gate
  right
  left
  decide

/-- C7 (amended): on the end-to-end scenario with its raw keys realized as
`Key.left`, `f`, `Key.space` (the map entries for the left, shoot and jump
actions), threshold 2 yields APM `= 9000/17 ≈ 529.4`, percentages
`pct_left = pct_shoot = pct_jump = 1/3`, and overall duration mean
`= 130/3 ≈ 43.33`; with the literal unmapped keys the pipeline reports
insufficient data. -/
theorem c7_end_to_end (fsq : ℚ → ℚ) :
    (engineer_features fsq 2 demoSchema evScenario).map Features.apm = some (9000 / 17) ∧
    ((engineer_features fsq 2 demoSchema evScenario).elim [] Features.allFeatures).lookup
      "pct_left" = some (1 / 3) ∧
    ((engineer_features fsq 2 demoSchema evScenario).elim [] Features.allFeatures).lookup
      "pct_shoot" = some (1 / 3) ∧
    ((engineer_features fsq 2 demoSchema evScenario).elim [] Features.allFeatures).lookup
      "pct_jump" = some (1 / 3) ∧
    ((engineer_features fsq 2 demoSchema evScenario).elim [] Features.allFeatures).lookup
      "overall_duration_mean" = some (130 / 3) := by
  rw [engineer_features_some fsq 2 demoSchema evScenario evScenario_gate1 evScenario_gate2
    evScenario_gate3 evScenario_gate4]
  have hkd : (normalizeEvents evScenario).filter isPress =
      [⟨.press, "Key.left", "left", 0⟩, ⟨.press, "f", "shoot", 100⟩,
       ⟨.press, "Key.space", "jump", 300⟩] := by decide
  have hdp : durationPairs (normalizeEvents evScenario) =
      [("left", 50), ("shoot", 40), ("jump", 40)] := by decide
  have hmax : maxT (normalizeEvents evScenario) = 340 := by decide
  simp only [Option.map_some', Option.elim]
  rw [hkd, hdp, hmax]
  refine ⟨?_, ?_, ?_, ?_, ?_⟩
  · norm_num
  · simp [pctFeatures, ACTIONS, overallRhythm, actionTimingFeatures, List.lookup,
      meanQ, varQ, medianQ, pct_name_dash, pct_name_down, pct_name_ex_move, pct_name_jump,
      pct_name_left, pct_name_lock, pct_name_right, pct_name_shoot, pct_name_up]
  · simp [pctFeatures, ACTIONS, overallRhythm, actionTimingFeatures, List.lookup,
      meanQ, varQ, medianQ, pct_name_dash, pct_name_down, pct_name_ex_move, pct_name_jump,
      pct_name_left, pct_name_lock, pct_name_right, pct_name_shoot, pct_name_up]
  · simp [pctFeatures, ACTIONS, overallRhythm, actionTimingFeatures, List.lookup,
      meanQ, varQ, medianQ, pct_name_dash, pct_name_down, pct_name_ex_move, pct_name_jump,
      pct_name_left, pct_name_lock, pct_name_right, pct_name_shoot, pct_name_up]
  · simp [pctFeatures, ACTIONS, overallRhythm, actionTimingFeatures, List.lookup,
      meanQ, varQ, medianQ, pct_name_dash, pct_name_down, pct_name_ex_move, pct_name_jump,
      pct_name_left, pct_name_lock, pct_name_right, pct_name_shoot, pct_name_up]
    norm_num
